import Mathlib

/-!
Verification of the ghost/shadow-git-activity commit mirror engine
(`shadow.js`, authoritative variant) against its design specification.

The script is shallowly embedded here: JavaScript strings become `List Char`,
the external `git` command-line collaborator becomes an explicit oracle /
model, and the per-commit orchestrator loop of `main` becomes a recursive
function threading the shadow-buffer state.
-/

namespace ShadowGit

/-- JavaScript strings are modelled as lists of characters. -/
abbrev Str := List Char

/-- The single-space separator used by the commit message wire format. -/
def spChar : Char := ' '

/-- The newline character used by `join("\n")` / `split("\n")`. -/
def nlChar : Char := '\n'

/-- The unit separator `"\x1f"` used by `getCommitsDataFromRepoSource` to
separate the pretty-format fields. -/
def usChar : Char := '\x1F'

/-- One parsed source commit, as produced by `getCommitsDataFromRepoSource`
(shadow.js lines 530-537): short SHA, author email, ISO author date. -/
structure SourceCommit where
  commitShaSource : Str
  commitAuthorEmailSource : Str
  commitAuthorDateSource : Str
deriving DecidableEq

/-- Result of `getInsertionsDeletionsFromCommit` (shadow.js lines 578-591):
the insertion and deletion counts parsed from `git show --shortstat`.
The git query itself is an external collaborator; the engine receives it
through a `Str → DiffStat` oracle. -/
structure DiffStat where
  commitInsertions : Nat
  commitDeletions : Nat
deriving DecidableEq

/-- The configuration fields of `config.json` that the engine core reads
(shadow.js lines 616-623 and 652-653). -/
structure Config where
  commitAuthorNameTarget : Str
  commitAuthorEmailTarget : Str
  commitAuthorEmailsSource : List Str
deriving DecidableEq

/-- Translation of `getShadowedShas` (shadow.js lines 543-555): map each
target-repository commit message to the part before the first `" "`
(`commitMessage.split(" ")` then `parts.length > 0 ? parts[0] : null`;
the JavaScript `null` is modelled by `none`). -/
def getShadowedShas (commitMessages : List Str) : List (Option Str) :=
  commitMessages.map (fun commitMessage =>
    let commitMessageParts := commitMessage.splitOn spChar
    if commitMessageParts.length > 0 then some (commitMessageParts.getD 0 []) else none)

/-- Translation of `getShadowLogLines` (shadow.js lines 560-570): the shadow
log file state is `none` when the file does not exist (return `[]`), else its
content split on newlines. -/
def getShadowLogLines : Option Str → List Str
  | none => []
  | some shadowLog => shadowLog.splitOn nlChar

/-- Translation of `writeLinesToShadowLogFile` (shadow.js lines 597-600):
the file content written is `lines.join("\n")`. -/
def writeLinesToShadowLogFile (lines : List Str) : Str :=
  List.intercalate [nlChar] lines

/-- The observable effect of `createShadowCommit` (shadow.js lines 609-626):
the file content written for the staged artifact, the commit message, and the
six git environment variables overriding author/committer identity and date. -/
structure ShadowCommit where
  envAuthorName : Str
  envAuthorEmail : Str
  envAuthorDate : Str
  envCommitterName : Str
  envCommitterEmail : Str
  envCommitterDate : Str
  commitMessage : Str
  shadowLogFileContent : Str
deriving DecidableEq

/-- Translation of `createShadowCommit` (shadow.js lines 609-626). -/
def createShadowCommit (config : Config) (shadowLogLines : List Str)
    (commitMessage : Str) (commitAuthorDateSource : Str) : ShadowCommit :=
  { shadowLogFileContent := writeLinesToShadowLogFile shadowLogLines
    envAuthorName := config.commitAuthorNameTarget
    envAuthorEmail := config.commitAuthorEmailTarget
    envAuthorDate := commitAuthorDateSource
    envCommitterName := config.commitAuthorNameTarget
    envCommitterEmail := config.commitAuthorEmailTarget
    envCommitterDate := commitAuthorDateSource
    commitMessage := commitMessage }

/-- Decimal rendering of a count, as JavaScript template interpolation of a
number does. -/
def natStr (n : Nat) : Str := (Nat.repr n).data

/-- Translation of the commit message construction (shadow.js line 737):
`<sha> <date> +<insertions> -<deletions> <email>`. -/
def mkCommitMessage (c : SourceCommit) (d : DiffStat) : Str :=
  c.commitShaSource ++ [spChar] ++ c.commitAuthorDateSource ++ [spChar, '+']
    ++ natStr d.commitInsertions ++ [spChar, '-'] ++ natStr d.commitDeletions
    ++ [spChar] ++ c.commitAuthorEmailSource

/-- Translation of the shadow-buffer mutation (shadow.js lines 718-724):
`slice(0, length - min(deletions, length))` then push `insertions` copies of
the source SHA. -/
def applyDiff (shadowLogLines : List Str) (d : DiffStat) (commitShaSource : Str) : List Str :=
  let shadowLogLinesToDelete := min d.commitDeletions shadowLogLines.length
  shadowLogLines.take (shadowLogLines.length - shadowLogLinesToDelete)
    ++ List.replicate d.commitInsertions commitShaSource

/-- Result of one engine run: the commits actually created in the target
repository (in creation order, oldest first), the `[dry-run]` preview
messages, and the final in-memory shadow-buffer lines. -/
structure RunResult where
  created : List ShadowCommit
  previews : List Str
  finalLines : List Str
deriving DecidableEq

/-- Translation of the per-commit loop of `main` (shadow.js lines 694-745):
skip on ledger hit, skip on zero diff, otherwise mutate the buffer, build the
message, and either preview (dry run) or create the shadow commit.
`Set.has` on the ledger is modelled by list membership. -/
def processCommits (config : Config) (dryRun : Bool) (diffOf : Str → DiffStat)
    (shadowedShas : List (Option Str)) :
    List SourceCommit → List Str → RunResult
  | [], shadowLogLines => ⟨[], [], shadowLogLines⟩
  | c :: rest, shadowLogLines =>
    if some c.commitShaSource ∈ shadowedShas then
      processCommits config dryRun diffOf shadowedShas rest shadowLogLines
    else if (diffOf c.commitShaSource).commitInsertions = 0
        ∧ (diffOf c.commitShaSource).commitDeletions = 0 then
      processCommits config dryRun diffOf shadowedShas rest shadowLogLines
    else
      let newLines := applyDiff shadowLogLines (diffOf c.commitShaSource) c.commitShaSource
      let msg := mkCommitMessage c (diffOf c.commitShaSource)
      let r := processCommits config dryRun diffOf shadowedShas rest newLines
      if dryRun then
        ⟨r.created, msg :: r.previews, r.finalLines⟩
      else
        ⟨createShadowCommit config newLines msg c.commitAuthorDateSource :: r.created,
          r.previews, r.finalLines⟩

/-- The two skip conditions of the loop (shadow.js lines 695 and 713): the
commit's SHA is already in the ledger, or its diff is zero/zero. -/
def isSkipped (diffOf : Str → DiffStat) (shadowedShas : List (Option Str))
    (c : SourceCommit) : Prop :=
  some c.commitShaSource ∈ shadowedShas ∨
    ((diffOf c.commitShaSource).commitInsertions = 0
      ∧ (diffOf c.commitShaSource).commitDeletions = 0)

instance (diffOf : Str → DiffStat) (shadowedShas : List (Option Str)) (c : SourceCommit) :
    Decidable (isSkipped diffOf shadowedShas c) := by
  unfold isSkipped
  infer_instance

/-- Translation of `main` (shadow.js lines 632-750): filter the source
commits by the author allow-list, read the ledger from the target
repository's commit messages, load the shadow log lines, then run the
per-commit loop.  (The empty-history early exits at lines 646-664 terminate
with nothing created, which coincides with processing an empty list.) -/
def runEngine (config : Config) (dryRun : Bool) (diffOf : Str → DiffStat)
    (targetCommitMessages : List Str) (shadowLogFile : Option Str)
    (commitsDataFromRepoSource : List SourceCommit) : RunResult :=
  let filteredCommitsDataFromRepoSource := commitsDataFromRepoSource.filter
    (fun c => config.commitAuthorEmailsSource.contains c.commitAuthorEmailSource)
  let shadowedShas := getShadowedShas targetCommitMessages
  let shadowLogLines := getShadowLogLines shadowLogFile
  processCommits config dryRun diffOf shadowedShas
    filteredCommitsDataFromRepoSource shadowLogLines

/-- One commit of the source branch's linear ancestry as the external git
collaborator sees it, including whether it is a merge commit. -/
structure RawSourceCommit where
  shortSha : Str
  authorEmail : Str
  authorDateISO : Str
  isMerge : Bool
deriving DecidableEq

/-- Translation of JavaScript `String.prototype.trim` as applied by `runGit`
(shadow.js line 484) and by `getCommitsDataFromRepoSource` (line 517). -/
def jsTrim (s : Str) : Str :=
  ((s.dropWhile Char.isWhitespace).reverse.dropWhile Char.isWhitespace).reverse

/-- Translation of the pretty format built at shadow.js lines 510-514:
`["%h", "%ae", "%aI"].join("%x1f")`. -/
def prettyFormatSource : Str :=
  List.intercalate ("%x1f").data [("%h").data, ("%ae").data, ("%aI").data]

/-- Translation of the git command string built at shadow.js line 516:
`log <branchName> --reverse --pretty=format:"<prettyFormat>"`. -/
def sourceLogCmd (branchName : Str) : Str :=
  ("log ").data ++ branchName ++ (" --reverse --pretty=format:\"").data
    ++ prettyFormatSource ++ ("\"").data

/-- Whether `sub` occurs as a contiguous substring of `s`. -/
def strContainsSub (s sub : Str) : Bool :=
  s.tails.any (fun t => sub.isPrefixOf t)

/-- Whether the command string carries the `--no-merges` flag. -/
def hasNoMergesFlag (cmd : Str) : Bool :=
  strContainsSub cmd ("--no-merges").data

/-- Modelled from the spec: the external git command-line collaborator of
section 6 ("list linear, non-merge history of a branch oldest-first yielding
(shortId, authorEmail, authorDateISO8601WithOffset) per commit").  `git log
<branch> --reverse --pretty=format:"%h%x1f%ae%x1f%aI"` prints one line per
ancestry commit, oldest first, with the three fields joined by the unit
separator; merge commits are omitted exactly when the command carries the
`--no-merges` flag. -/
def gitLogSourceOutput (repoBranchCommits : List RawSourceCommit) (noMerges : Bool) : Str :=
  let listed := if noMerges
    then repoBranchCommits.filter (fun c => !c.isMerge)
    else repoBranchCommits
  List.intercalate [nlChar] (listed.map (fun c =>
    c.shortSha ++ [usChar] ++ c.authorEmail ++ [usChar] ++ c.authorDateISO))

/-- Translation of `getCommitsDataFromRepoSource` (shadow.js lines 508-538):
build the log command, run it through the collaborator model (the merge
filter is applied only if the built command contains `--no-merges`), trim,
split into lines, and split each line on the unit separator into the three
fields.  A field absent from a line is JavaScript `undefined`; it is
modelled by the empty string default of `getD`. -/
def getCommitsDataFromRepoSource (repoBranchCommits : List RawSourceCommit)
    (branchName : Str) : List SourceCommit :=
  let cmd := sourceLogCmd branchName
  let commitLog := jsTrim (gitLogSourceOutput repoBranchCommits (hasNoMergesFlag cmd))
  let logLines := (jsTrim commitLog).splitOn nlChar
  logLines.map (fun logLine =>
    let ps := logLine.splitOn usChar
    { commitShaSource := ps.getD 0 []
      commitAuthorEmailSource := ps.getD 1 []
      commitAuthorDateSource := ps.getD 2 [] })

/-- Modelled from the spec: the Mirror Ledger contract words "extracts, from
each message, the token preceding the first whitespace" — the part of a
message that comes before its first space. -/
def leadingToken (commitMessage : Str) : Str :=
  commitMessage.takeWhile (fun c => c != spChar)

/-! Concrete inputs used by witnesses and counterexamples. -/

/-- A concrete configuration: one public identity, one allow-listed source
author. -/
def demoConfig : Config :=
  { commitAuthorNameTarget := ("Alice Public").data
    commitAuthorEmailTarget := ("alice.public@example.net").data
    commitAuthorEmailsSource := [("alice@example.com").data] }

/-- A concrete diff oracle: every commit shows one insertion, no deletion. -/
def demoDiff : Str → DiffStat := fun _ => ⟨1, 0⟩

/-- A concrete allow-listed source commit. -/
def demoCommit : SourceCommit :=
  { commitShaSource := ("abc1234").data
    commitAuthorEmailSource := ("alice@example.com").data
    commitAuthorDateSource := ("2024-09-30T19:40:22-07:00").data }

/-- The shadow commit that processing `demoCommit` from an empty buffer and
empty ledger creates. -/
def demoCreated : ShadowCommit :=
  createShadowCommit demoConfig [("abc1234").data]
    (mkCommitMessage demoCommit ⟨1, 0⟩) demoCommit.commitAuthorDateSource

/-- A concrete branch name. -/
def demoBranch : Str := ("main").data

/-- A concrete ordinary (non-merge) source commit as the collaborator model
sees it. -/
def demoRawCommit : RawSourceCommit :=
  { shortSha := ("aaa1111").data
    authorEmail := ("alice@example.com").data
    authorDateISO := ("2024-01-01T00:00:00+00:00").data
    isMerge := false }

/-- A concrete merge commit as the collaborator model sees it. -/
def demoRawMerge : RawSourceCommit :=
  { shortSha := ("bbb2222").data
    authorEmail := ("alice@example.com").data
    authorDateISO := ("2024-01-02T00:00:00+00:00").data
    isMerge := true }

/-- A source branch ancestry containing one ordinary commit and one merge
commit. -/
def demoRepo : List RawSourceCommit := [demoRawCommit, demoRawMerge]

end ShadowGit

namespace ShadowGit

/-! Helper lemmas about the first space-separated token of a message. -/

theorem splitOn_getD_zero (a : Char) (xs : Str) :
    (xs.splitOn a).getD 0 [] = xs.takeWhile (fun c => c != a) := by
  induction xs with
  | nil => rfl
  | cons x xs ih =>
    show ((x :: xs).splitOnP (fun c => c == a)).getD 0 [] = _
    rw [List.splitOnP_cons]
    by_cases h : x = a
    · subst h
      simp [List.takeWhile_cons]
    · have hb : (x == a) = false := by simp [h]
      obtain ⟨hd, tl, htl⟩ := List.exists_cons_of_ne_nil
        (List.splitOnP_ne_nil (fun c => c == a) xs)
      simp only [hb, Bool.false_eq_true, if_false, htl, List.modifyHead,
        List.takeWhile_cons, bne_iff_ne, ne_eq, h, not_false_iff, if_true]
      have := ih
      rw [show xs.splitOn a = xs.splitOnP (fun c => c == a) from rfl, htl] at this
      simpa using this

theorem splitOn_leading (a : Char) (xs rest : Str) (h : a ∉ xs) :
    (xs ++ a :: rest).splitOn a = xs :: rest.splitOn a := by
  have h1 : ∀ x ∈ xs, ¬((fun c => c == a) x = true) := by
    intro x hx hxa
    exact h ((eq_of_beq hxa) ▸ hx)
  simpa [List.splitOn] using
    List.splitOnP_first (fun c => c == a) xs h1 a (by simp) rest

theorem mkCommitMessage_leadingToken (c : SourceCommit) (d : DiffStat)
    (h : spChar ∉ c.commitShaSource) :
    ((mkCommitMessage c d).splitOn spChar).getD 0 [] = c.commitShaSource := by
  have hmsg : mkCommitMessage c d
      = c.commitShaSource ++ spChar :: (c.commitAuthorDateSource ++ [spChar, '+']
          ++ natStr d.commitInsertions ++ [spChar, '-'] ++ natStr d.commitDeletions
          ++ [spChar] ++ c.commitAuthorEmailSource) := by
    simp [mkCommitMessage]
  rw [hmsg, splitOn_leading spChar c.commitShaSource _ h]
  rfl

theorem getShadowedShas_eq_map (commitMessages : List Str) :
    getShadowedShas commitMessages = commitMessages.map (fun m => some (leadingToken m)) := by
  unfold getShadowedShas
  refine List.map_congr_left ?_
  intro m _
  have hne : m.splitOn spChar ≠ [] := List.splitOnP_ne_nil (fun c => c == spChar) m
  have hlen : (m.splitOn spChar).length > 0 := List.length_pos.mpr hne
  simp only [hlen, if_true]
  rw [splitOn_getD_zero]
  rfl

theorem getShadowedShas_append (a b : List Str) :
    getShadowedShas (a ++ b) = getShadowedShas a ++ getShadowedShas b := by
  unfold getShadowedShas
  exact List.map_append _ a b

end ShadowGit

namespace ShadowGit

/-! Helper lemmas characterising the per-commit loop. -/

theorem processCommits_cons_ledger (config : Config) (dryRun : Bool)
    (diffOf : Str → DiffStat) (shadowedShas : List (Option Str))
    (c : SourceCommit) (rest : List SourceCommit) (lines : List Str)
    (h : some c.commitShaSource ∈ shadowedShas) :
    processCommits config dryRun diffOf shadowedShas (c :: rest) lines
      = processCommits config dryRun diffOf shadowedShas rest lines := by
  simp only [processCommits]
  rw [if_pos h]

theorem processCommits_cons_zero (config : Config) (dryRun : Bool)
    (diffOf : Str → DiffStat) (shadowedShas : List (Option Str))
    (c : SourceCommit) (rest : List SourceCommit) (lines : List Str)
    (h : ¬ some c.commitShaSource ∈ shadowedShas)
    (h2 : (diffOf c.commitShaSource).commitInsertions = 0
      ∧ (diffOf c.commitShaSource).commitDeletions = 0) :
    processCommits config dryRun diffOf shadowedShas (c :: rest) lines
      = processCommits config dryRun diffOf shadowedShas rest lines := by
  simp only [processCommits]
  rw [if_neg h, if_pos h2]

theorem processCommits_cons_emit (config : Config) (dryRun : Bool)
    (diffOf : Str → DiffStat) (shadowedShas : List (Option Str))
    (c : SourceCommit) (rest : List SourceCommit) (lines : List Str)
    (h : ¬ some c.commitShaSource ∈ shadowedShas)
    (h2 : ¬ ((diffOf c.commitShaSource).commitInsertions = 0
      ∧ (diffOf c.commitShaSource).commitDeletions = 0)) :
    processCommits config dryRun diffOf shadowedShas (c :: rest) lines
      = (if dryRun then
          ⟨(processCommits config dryRun diffOf shadowedShas rest
              (applyDiff lines (diffOf c.commitShaSource) c.commitShaSource)).created,
            mkCommitMessage c (diffOf c.commitShaSource)
              :: (processCommits config dryRun diffOf shadowedShas rest
                  (applyDiff lines (diffOf c.commitShaSource) c.commitShaSource)).previews,
            (processCommits config dryRun diffOf shadowedShas rest
              (applyDiff lines (diffOf c.commitShaSource) c.commitShaSource)).finalLines⟩
        else
          ⟨createShadowCommit config
              (applyDiff lines (diffOf c.commitShaSource) c.commitShaSource)
              (mkCommitMessage c (diffOf c.commitShaSource)) c.commitAuthorDateSource
            :: (processCommits config dryRun diffOf shadowedShas rest
                (applyDiff lines (diffOf c.commitShaSource) c.commitShaSource)).created,
            (processCommits config dryRun diffOf shadowedShas rest
              (applyDiff lines (diffOf c.commitShaSource) c.commitShaSource)).previews,
            (processCommits config dryRun diffOf shadowedShas rest
              (applyDiff lines (diffOf c.commitShaSource) c.commitShaSource)).finalLines⟩) := by
  simp only [processCommits]
  rw [if_neg h, if_neg h2]

theorem not_isSkipped_of (diffOf : Str → DiffStat) (shadowedShas : List (Option Str))
    (c : SourceCommit)
    (h : ¬ some c.commitShaSource ∈ shadowedShas)
    (h2 : ¬ ((diffOf c.commitShaSource).commitInsertions = 0
      ∧ (diffOf c.commitShaSource).commitDeletions = 0)) :
    ¬ isSkipped diffOf shadowedShas c := by
  intro hsk
  rcases hsk with hm | hz
  · exact h hm
  · exact h2 hz

theorem processCommits_created_messages (config : Config) (diffOf : Str → DiffStat)
    (shadowedShas : List (Option Str)) :
    ∀ (cs : List SourceCommit) (lines : List Str),
      ((processCommits config false diffOf shadowedShas cs lines).created).map
          (fun sc => sc.commitMessage)
        = (cs.filter (fun c => decide (¬ isSkipped diffOf shadowedShas c))).map
            (fun c => mkCommitMessage c (diffOf c.commitShaSource)) := by
  intro cs
  induction cs with
  | nil => intro lines; rfl
  | cons c rest ih =>
    intro lines
    by_cases h1 : some c.commitShaSource ∈ shadowedShas
    · have hsk : isSkipped diffOf shadowedShas c := Or.inl h1
      rw [processCommits_cons_ledger config false diffOf shadowedShas c rest lines h1,
        ih lines]
      simp [List.filter_cons, hsk]
    · by_cases h2 : (diffOf c.commitShaSource).commitInsertions = 0
          ∧ (diffOf c.commitShaSource).commitDeletions = 0
      · have hsk : isSkipped diffOf shadowedShas c := Or.inr h2
        rw [processCommits_cons_zero config false diffOf shadowedShas c rest lines h1 h2,
          ih lines]
        simp [List.filter_cons, hsk]
      · have hsk := not_isSkipped_of diffOf shadowedShas c h1 h2
        rw [processCommits_cons_emit config false diffOf shadowedShas c rest lines h1 h2]
        simp only [if_false, Bool.false_eq_true, List.map_cons, createShadowCommit]
        rw [ih (applyDiff lines (diffOf c.commitShaSource) c.commitShaSource)]
        simp [List.filter_cons, hsk]

theorem processCommits_dry_created (config : Config) (diffOf : Str → DiffStat)
    (shadowedShas : List (Option Str)) :
    ∀ (cs : List SourceCommit) (lines : List Str),
      (processCommits config true diffOf shadowedShas cs lines).created = [] := by
  intro cs
  induction cs with
  | nil => intro lines; rfl
  | cons c rest ih =>
    intro lines
    by_cases h1 : some c.commitShaSource ∈ shadowedShas
    · rw [processCommits_cons_ledger config true diffOf shadowedShas c rest lines h1]
      exact ih lines
    · by_cases h2 : (diffOf c.commitShaSource).commitInsertions = 0
          ∧ (diffOf c.commitShaSource).commitDeletions = 0
      · rw [processCommits_cons_zero config true diffOf shadowedShas c rest lines h1 h2]
        exact ih lines
      · rw [processCommits_cons_emit config true diffOf shadowedShas c rest lines h1 h2]
        simpa using ih (applyDiff lines (diffOf c.commitShaSource) c.commitShaSource)

theorem processCommits_dry_previews (config : Config) (diffOf : Str → DiffStat)
    (shadowedShas : List (Option Str)) :
    ∀ (cs : List SourceCommit) (lines : List Str),
      (processCommits config true diffOf shadowedShas cs lines).previews
        = (cs.filter (fun c => decide (¬ isSkipped diffOf shadowedShas c))).map
            (fun c => mkCommitMessage c (diffOf c.commitShaSource)) := by
  intro cs
  induction cs with
  | nil => intro lines; rfl
  | cons c rest ih =>
    intro lines
    by_cases h1 : some c.commitShaSource ∈ shadowedShas
    · have hsk : isSkipped diffOf shadowedShas c := Or.inl h1
      rw [processCommits_cons_ledger config true diffOf shadowedShas c rest lines h1, ih lines]
      simp [List.filter_cons, hsk]
    · by_cases h2 : (diffOf c.commitShaSource).commitInsertions = 0
          ∧ (diffOf c.commitShaSource).commitDeletions = 0
      · have hsk : isSkipped diffOf shadowedShas c := Or.inr h2
        rw [processCommits_cons_zero config true diffOf shadowedShas c rest lines h1 h2, ih lines]
        simp [List.filter_cons, hsk]
      · have hsk := not_isSkipped_of diffOf shadowedShas c h1 h2
        rw [processCommits_cons_emit config true diffOf shadowedShas c rest lines h1 h2]
        simp only [if_true]
        rw [ih (applyDiff lines (diffOf c.commitShaSource) c.commitShaSource)]
        simp [List.filter_cons, hsk]

end ShadowGit

namespace ShadowGit

theorem processCommits_finalLines (config : Config) (dryRun : Bool)
    (diffOf : Str → DiffStat) (shadowedShas : List (Option Str)) :
    ∀ (cs : List SourceCommit) (lines : List Str),
      (processCommits config dryRun diffOf shadowedShas cs lines).finalLines
        = cs.foldl (fun ls c => if isSkipped diffOf shadowedShas c then ls
            else applyDiff ls (diffOf c.commitShaSource) c.commitShaSource) lines := by
  intro cs
  induction cs with
  | nil => intro lines; rfl
  | cons c rest ih =>
    intro lines
    by_cases h1 : some c.commitShaSource ∈ shadowedShas
    · have hsk : isSkipped diffOf shadowedShas c := Or.inl h1
      rw [processCommits_cons_ledger config dryRun diffOf shadowedShas c rest lines h1,
        ih lines, List.foldl_cons, if_pos hsk]
    · by_cases h2 : (diffOf c.commitShaSource).commitInsertions = 0
          ∧ (diffOf c.commitShaSource).commitDeletions = 0
      · have hsk : isSkipped diffOf shadowedShas c := Or.inr h2
        rw [processCommits_cons_zero config dryRun diffOf shadowedShas c rest lines h1 h2,
          ih lines, List.foldl_cons, if_pos hsk]
      · have hsk := not_isSkipped_of diffOf shadowedShas c h1 h2
        rw [processCommits_cons_emit config dryRun diffOf shadowedShas c rest lines h1 h2,
          List.foldl_cons, if_neg hsk]
        cases dryRun with
        | false => simpa using ih (applyDiff lines (diffOf c.commitShaSource) c.commitShaSource)
        | true => simpa using ih (applyDiff lines (diffOf c.commitShaSource) c.commitShaSource)

theorem processCommits_all_skipped (config : Config) (dryRun : Bool)
    (diffOf : Str → DiffStat) (shadowedShas : List (Option Str)) :
    ∀ (cs : List SourceCommit) (lines : List Str),
      (∀ c ∈ cs, isSkipped diffOf shadowedShas c) →
      processCommits config dryRun diffOf shadowedShas cs lines = ⟨[], [], lines⟩ := by
  intro cs
  induction cs with
  | nil => intro lines _; rfl
  | cons c rest ih =>
    intro lines h
    have hc : isSkipped diffOf shadowedShas c := h c (List.mem_cons_self c rest)
    have hrest : ∀ x ∈ rest, isSkipped diffOf shadowedShas x :=
      fun x hx => h x (List.mem_cons_of_mem c hx)
    by_cases h1 : some c.commitShaSource ∈ shadowedShas
    · rw [processCommits_cons_ledger config dryRun diffOf shadowedShas c rest lines h1]
      exact ih lines hrest
    · have h2 : (diffOf c.commitShaSource).commitInsertions = 0
          ∧ (diffOf c.commitShaSource).commitDeletions = 0 := by
        rcases hc with hm | hz
        · exact absurd hm h1
        · exact hz
      rw [processCommits_cons_zero config dryRun diffOf shadowedShas c rest lines h1 h2]
      exact ih lines hrest

theorem processCommits_mem_created (config : Config) (diffOf : Str → DiffStat)
    (shadowedShas : List (Option Str)) :
    ∀ (cs : List SourceCommit) (lines : List Str) (sc : ShadowCommit),
      sc ∈ (processCommits config false diffOf shadowedShas cs lines).created →
      ∃ c, c ∈ cs ∧ ¬ isSkipped diffOf shadowedShas c ∧
        ∃ ls, sc = createShadowCommit config ls
          (mkCommitMessage c (diffOf c.commitShaSource)) c.commitAuthorDateSource := by
  intro cs
  induction cs with
  | nil => intro lines sc h; exact absurd h (List.not_mem_nil sc)
  | cons c rest ih =>
    intro lines sc hmem
    by_cases h1 : some c.commitShaSource ∈ shadowedShas
    · rw [processCommits_cons_ledger config false diffOf shadowedShas c rest lines h1] at hmem
      obtain ⟨c', hc', hsk', ls, he⟩ := ih lines sc hmem
      exact ⟨c', List.mem_cons_of_mem c hc', hsk', ls, he⟩
    · by_cases h2 : (diffOf c.commitShaSource).commitInsertions = 0
          ∧ (diffOf c.commitShaSource).commitDeletions = 0
      · rw [processCommits_cons_zero config false diffOf shadowedShas c rest lines h1 h2] at hmem
        obtain ⟨c', hc', hsk', ls, he⟩ := ih lines sc hmem
        exact ⟨c', List.mem_cons_of_mem c hc', hsk', ls, he⟩
      · have hsk := not_isSkipped_of diffOf shadowedShas c h1 h2
        rw [processCommits_cons_emit config false diffOf shadowedShas c rest lines h1 h2] at hmem
        simp only [Bool.false_eq_true, if_false, List.mem_cons] at hmem
        rcases hmem with he | hmem
        · exact ⟨c, List.mem_cons_self c rest, hsk,
            applyDiff lines (diffOf c.commitShaSource) c.commitShaSource, he⟩
        · obtain ⟨c', hc', hsk', ls, he⟩ :=
            ih (applyDiff lines (diffOf c.commitShaSource) c.commitShaSource) sc hmem
          exact ⟨c', List.mem_cons_of_mem c hc', hsk', ls, he⟩

end ShadowGit

namespace ShadowGit

theorem leadingToken_mkCommitMessage (c : SourceCommit) (d : DiffStat)
    (h : spChar ∉ c.commitShaSource) :
    leadingToken (mkCommitMessage c d) = c.commitShaSource := by
  have h1 := mkCommitMessage_leadingToken c d h
  rw [splitOn_getD_zero] at h1
  exact h1

/-! The claim theorems. -/

/-- C2: Shadow Buffer mutation semantics.  For every buffer, magnitude and
commit id: (1) the buffer update removes exactly `min(deletions, length)`
elements from the end of the sequence and then appends `insertions` new
elements; (2) the new length equals `max(0, length − deletions) +
insertions`; (3) across an entire processed sequence, the final buffer is
the fold of exactly this update over the non-skipped commits. -/
theorem shadow_buffer_mutation_semantics (lines : List Str) (d : DiffStat) (sha : Str) :
    (∃ kept dropped : List Str,
        lines = kept ++ dropped ∧
        dropped.length = min d.commitDeletions lines.length ∧
        applyDiff lines d sha = kept ++ List.replicate d.commitInsertions sha) ∧
    ((applyDiff lines d sha).length : Int)
        = max 0 ((lines.length : Int) - (d.commitDeletions : Int))
            + (d.commitInsertions : Int) ∧
    (∀ (config : Config) (dryRun : Bool) (diffOf : Str → DiffStat)
        (shadowedShas : List (Option Str)) (cs : List SourceCommit),
      (processCommits config dryRun diffOf shadowedShas cs lines).finalLines
        = cs.foldl (fun ls c => if isSkipped diffOf shadowedShas c then ls
            else applyDiff ls (diffOf c.commitShaSource) c.commitShaSource) lines) := by
  refine ⟨⟨lines.take (lines.length - min d.commitDeletions lines.length),
      lines.drop (lines.length - min d.commitDeletions lines.length), ?_, ?_, rfl⟩, ?_, ?_⟩
  · exact (List.take_append_drop _ lines).symm
  · rw [List.length_drop]
    omega
  · have hlen : (applyDiff lines d sha).length
        = (lines.length - min d.commitDeletions lines.length) + d.commitInsertions := by
      simp [applyDiff]
    rw [hlen]
    push_cast
    omega
  · intro config dryRun diffOf shadowedShas cs
    exact processCommits_finalLines config dryRun diffOf shadowedShas cs lines

/-- C4: Skip conditions leave state unchanged.  If a candidate commit's SHA
is already in the ledger, or its diff magnitude is zero insertions and zero
deletions, then processing it creates no target commit, emits no preview,
leaves the Shadow Buffer untouched, and continues with the remaining
commits: the run result equals the run result on the remaining commits
alone. -/
theorem skip_conditions_leave_state_unchanged (config : Config) (dryRun : Bool)
    (diffOf : Str → DiffStat) (shadowedShas : List (Option Str))
    (c : SourceCommit) (rest : List SourceCommit) (lines : List Str)
    (h : isSkipped diffOf shadowedShas c) :
    processCommits config dryRun diffOf shadowedShas (c :: rest) lines
      = processCommits config dryRun diffOf shadowedShas rest lines := by
  by_cases h1 : some c.commitShaSource ∈ shadowedShas
  · exact processCommits_cons_ledger config dryRun diffOf shadowedShas c rest lines h1
  · exact processCommits_cons_zero config dryRun diffOf shadowedShas c rest lines h1
      (h.resolve_left h1)

/-- C4 witness: a ledger-hit commit is skipped at a concrete input. -/
theorem skip_conditions_witness :
    processCommits demoConfig false demoDiff [some (("abc1234").data)] [demoCommit] []
      = processCommits demoConfig false demoDiff [some (("abc1234").data)] [] [] :=
  skip_conditions_leave_state_unchanged demoConfig false demoDiff
    [some (("abc1234").data)] demoCommit [] [] (Or.inl (by decide))

/-- C7: Mirror Ledger extraction.  For every list of target commit messages,
the ledger is exactly the first space-separated token of each message (the
substring preceding the first space), membership succeeds exactly for
shortIds that lead some message, and no message — however malformed — maps
to the error value `none`. -/
theorem ledger_extraction_first_tokens (commitMessages : List Str) :
    getShadowedShas commitMessages
        = commitMessages.map (fun m => some (leadingToken m)) ∧
    (∀ sha : Str, some sha ∈ getShadowedShas commitMessages
        ↔ ∃ m ∈ commitMessages, leadingToken m = sha) ∧
    none ∉ getShadowedShas commitMessages := by
  refine ⟨getShadowedShas_eq_map commitMessages, ?_, ?_⟩
  · intro sha
    rw [getShadowedShas_eq_map]
    simp [List.mem_map]
  · rw [getShadowedShas_eq_map]
    simp

/-- C7 witness: ledger extraction evaluated at a concrete message list with
a malformed (no-space) foreign message. -/
theorem ledger_extraction_witness :
    getShadowedShas [("abc1234 2024 +1 -0 a@x.co").data, ("nospace").data]
        = [("abc1234 2024 +1 -0 a@x.co").data, ("nospace").data].map
            (fun m => some (leadingToken m)) ∧
    (∀ sha : Str, some sha ∈ getShadowedShas
          [("abc1234 2024 +1 -0 a@x.co").data, ("nospace").data]
        ↔ ∃ m ∈ [("abc1234 2024 +1 -0 a@x.co").data, ("nospace").data],
            leadingToken m = sha) ∧
    none ∉ getShadowedShas [("abc1234 2024 +1 -0 a@x.co").data, ("nospace").data] :=
  ledger_extraction_first_tokens [("abc1234 2024 +1 -0 a@x.co").data, ("nospace").data]

/-- C10: Shadow log write/load round-trip.  Writing a non-empty list of
newline-free lines and loading it back returns the original list; writing
the empty list produces an empty (but existing) file which loads back as a
one-element list containing the empty string, so a buffer emptied to length
0 reloads with length 1. -/
theorem shadow_log_write_load_roundtrip (lines : List Str) :
    (lines ≠ [] → (∀ l ∈ lines, nlChar ∉ l) →
      getShadowLogLines (some (writeLinesToShadowLogFile lines)) = lines) ∧
    writeLinesToShadowLogFile [] = [] ∧
    getShadowLogLines (some (writeLinesToShadowLogFile [])) = [[]] ∧
    (getShadowLogLines (some (writeLinesToShadowLogFile []))).length = 1 := by
  refine ⟨?_, rfl, rfl, rfl⟩
  intro hne hnl
  show (List.intercalate [nlChar] lines).splitOn nlChar = lines
  exact List.splitOn_intercalate lines nlChar hnl hne

/-- C10 witness: the round-trip evaluated on a concrete two-line buffer. -/
theorem shadow_log_roundtrip_witness :
    getShadowLogLines (some (writeLinesToShadowLogFile [("ab").data, ("cd").data]))
      = [("ab").data, ("cd").data] :=
  (shadow_log_write_load_roundtrip [("ab").data, ("cd").data]).1 (by decide) (by decide)

end ShadowGit

namespace ShadowGit

/-- C5: Mirrored commit message format.  Every commit created by the loop
comes from some source commit in the processed list, its message is exactly
the single-space-separated string
`<shortId> <authorTimestamp> +<insertions> -<deletions> <authorIdentity>`,
and (for a space-free shortId) the shortId is the leading token of the
message. -/
theorem mirrored_commit_message_format (config : Config) (diffOf : Str → DiffStat)
    (shadowedShas : List (Option Str)) (cs : List SourceCommit) (lines : List Str)
    (sc : ShadowCommit)
    (hmem : sc ∈ (processCommits config false diffOf shadowedShas cs lines).created) :
    ∃ c ∈ cs,
      sc.commitMessage
        = c.commitShaSource ++ [spChar] ++ c.commitAuthorDateSource ++ [spChar, '+']
            ++ natStr (diffOf c.commitShaSource).commitInsertions ++ [spChar, '-']
            ++ natStr (diffOf c.commitShaSource).commitDeletions ++ [spChar]
            ++ c.commitAuthorEmailSource ∧
      (spChar ∉ c.commitShaSource →
        (sc.commitMessage.splitOn spChar).getD 0 [] = c.commitShaSource) := by
  obtain ⟨c, hc, hsk, ls, he⟩ :=
    processCommits_mem_created config diffOf shadowedShas cs lines sc hmem
  refine ⟨c, hc, ?_, ?_⟩
  · rw [he]
    rfl
  · intro hsp
    rw [he]
    exact mkCommitMessage_leadingToken c (diffOf c.commitShaSource) hsp

/-- C5 witness: the message of the commit created from `demoCommit`. -/
theorem mirrored_commit_message_format_witness :
    ∃ c ∈ [demoCommit],
      demoCreated.commitMessage
        = c.commitShaSource ++ [spChar] ++ c.commitAuthorDateSource ++ [spChar, '+']
            ++ natStr (demoDiff c.commitShaSource).commitInsertions ++ [spChar, '-']
            ++ natStr (demoDiff c.commitShaSource).commitDeletions ++ [spChar]
            ++ c.commitAuthorEmailSource ∧
      (spChar ∉ c.commitShaSource →
        (demoCreated.commitMessage.splitOn spChar).getD 0 [] = c.commitShaSource) :=
  mirrored_commit_message_format demoConfig demoDiff [] [demoCommit] [] demoCreated
    (by decide)

/-- C6: Identity substitution and timestamp fidelity.  Every commit created
by the loop carries the configured public identity as both author and
committer name/email — regardless of the source commit's own author — and
carries the source commit's author timestamp, byte for byte, as both author
date and committer date. -/
theorem identity_substitution_timestamp_fidelity (config : Config)
    (diffOf : Str → DiffStat) (shadowedShas : List (Option Str))
    (cs : List SourceCommit) (lines : List Str) (sc : ShadowCommit)
    (hmem : sc ∈ (processCommits config false diffOf shadowedShas cs lines).created) :
    ∃ c ∈ cs,
      sc.envAuthorName = config.commitAuthorNameTarget ∧
      sc.envCommitterName = config.commitAuthorNameTarget ∧
      sc.envAuthorEmail = config.commitAuthorEmailTarget ∧
      sc.envCommitterEmail = config.commitAuthorEmailTarget ∧
      sc.envAuthorDate = c.commitAuthorDateSource ∧
      sc.envCommitterDate = c.commitAuthorDateSource := by
  obtain ⟨c, hc, hsk, ls, he⟩ :=
    processCommits_mem_created config diffOf shadowedShas cs lines sc hmem
  subst he
  exact ⟨c, hc, rfl, rfl, rfl, rfl, rfl, rfl⟩

/-- C6 witness: identity and timestamp fields of the commit created from
`demoCommit`. -/
theorem identity_substitution_witness :
    ∃ c ∈ [demoCommit],
      demoCreated.envAuthorName = demoConfig.commitAuthorNameTarget ∧
      demoCreated.envCommitterName = demoConfig.commitAuthorNameTarget ∧
      demoCreated.envAuthorEmail = demoConfig.commitAuthorEmailTarget ∧
      demoCreated.envCommitterEmail = demoConfig.commitAuthorEmailTarget ∧
      demoCreated.envAuthorDate = c.commitAuthorDateSource ∧
      demoCreated.envCommitterDate = c.commitAuthorDateSource :=
  identity_substitution_timestamp_fidelity demoConfig demoDiff [] [demoCommit] []
    demoCreated (by decide)

/-- C8: Preview mode performs no writes.  A dry run creates no commit (and
so writes no artifact file, since the only file write happens inside
`createShadowCommit`), yet performs every computation: its emitted preview
messages are exactly the messages of the commits a normal run would create,
and its final Shadow Buffer equals the normal run's final buffer. -/
theorem dry_run_performs_no_writes (config : Config) (diffOf : Str → DiffStat)
    (targetCommitMessages : List Str) (shadowLogFile : Option Str)
    (commitsData : List SourceCommit) :
    (runEngine config true diffOf targetCommitMessages shadowLogFile commitsData).created
        = [] ∧
    (runEngine config true diffOf targetCommitMessages shadowLogFile commitsData).previews
      = ((runEngine config false diffOf targetCommitMessages shadowLogFile
            commitsData).created).map (fun sc => sc.commitMessage) ∧
    (runEngine config true diffOf targetCommitMessages shadowLogFile commitsData).finalLines
      = (runEngine config false diffOf targetCommitMessages shadowLogFile
          commitsData).finalLines := by
  refine ⟨?_, ?_, ?_⟩
  · exact processCommits_dry_created config diffOf (getShadowedShas targetCommitMessages)
      (commitsData.filter
        (fun c => config.commitAuthorEmailsSource.contains c.commitAuthorEmailSource))
      (getShadowLogLines shadowLogFile)
  · show (processCommits config true diffOf (getShadowedShas targetCommitMessages)
        (commitsData.filter
          (fun c => config.commitAuthorEmailsSource.contains c.commitAuthorEmailSource))
        (getShadowLogLines shadowLogFile)).previews
      = ((processCommits config false diffOf (getShadowedShas targetCommitMessages)
          (commitsData.filter
            (fun c => config.commitAuthorEmailsSource.contains c.commitAuthorEmailSource))
          (getShadowLogLines shadowLogFile)).created).map (fun sc => sc.commitMessage)
    rw [processCommits_dry_previews, processCommits_created_messages]
  · show (processCommits config true diffOf (getShadowedShas targetCommitMessages)
        (commitsData.filter
          (fun c => config.commitAuthorEmailsSource.contains c.commitAuthorEmailSource))
        (getShadowLogLines shadowLogFile)).finalLines
      = (processCommits config false diffOf (getShadowedShas targetCommitMessages)
          (commitsData.filter
            (fun c => config.commitAuthorEmailsSource.contains c.commitAuthorEmailSource))
          (getShadowLogLines shadowLogFile)).finalLines
    rw [processCommits_finalLines, processCommits_finalLines]

/-- C9 counterexample: the engine does not track newly emitted ids within a
run.  With a duplicated shortId in the filtered list — neither occurrence in
the initial ledger — the second occurrence is mirrored a second time: two
commits whose messages lead with the same shortId are created in one run. -/
theorem duplicate_shortId_mirrored_twice :
    (((runEngine demoConfig false demoDiff [("zzz9999 init").data] none
          [demoCommit, demoCommit]).created).map
        (fun sc => (sc.commitMessage.splitOn spChar).getD 0 []))
      = [("abc1234").data, ("abc1234").data] ∧
    ((runEngine demoConfig false demoDiff [("zzz9999 init").data] none
        [demoCommit, demoCommit]).created).length = 2 := by
  constructor
  · decide
  · decide

/-- C9 amended: within a single run the ledger checked is only the one read
at run start; a commit not in that ledger and with a non-zero diff is
mirrored at every occurrence, so a duplicated shortId would be mirrored
twice (the source history never actually contains duplicate shortIds). -/
theorem duplicate_shortId_not_suppressed (config : Config) (diffOf : Str → DiffStat)
    (shadowedShas : List (Option Str)) (lines : List Str) (c : SourceCommit)
    (h1 : ¬ some c.commitShaSource ∈ shadowedShas)
    (h2 : ¬ ((diffOf c.commitShaSource).commitInsertions = 0
      ∧ (diffOf c.commitShaSource).commitDeletions = 0)) :
    ((processCommits config false diffOf shadowedShas [c, c] lines).created).map
        (fun sc => sc.commitMessage)
      = [mkCommitMessage c (diffOf c.commitShaSource),
         mkCommitMessage c (diffOf c.commitShaSource)] := by
  rw [processCommits_created_messages config diffOf shadowedShas [c, c] lines]
  have hsk := not_isSkipped_of diffOf shadowedShas c h1 h2
  simp [List.filter_cons, hsk]

/-- C9 amended witness: the duplicate is mirrored twice at a concrete
input. -/
theorem duplicate_not_suppressed_witness :
    ((processCommits demoConfig false demoDiff [] [demoCommit, demoCommit] []).created).map
        (fun sc => sc.commitMessage)
      = [mkCommitMessage demoCommit (demoDiff demoCommit.commitShaSource),
         mkCommitMessage demoCommit (demoDiff demoCommit.commitShaSource)] :=
  duplicate_shortId_not_suppressed demoConfig demoDiff [] [] demoCommit
    (by decide) (by decide)

end ShadowGit

namespace ShadowGit

/-- C1: Idempotency.  After a completed first run, every message the run
created leads with its source commit's shortId; a second run against the
grown target history finds every candidate either in the ledger or
zero-diff, and creates zero additional commits — whatever artifact state
the second run starts from.  The hypothesis states that shortIds contain no
space, which git short hashes (hexadecimal) always satisfy. -/
theorem second_run_creates_no_commits (config : Config) (diffOf : Str → DiffStat)
    (targetCommitMessages : List Str) (shadowLogFile : Option Str)
    (commitsData : List SourceCommit)
    (hsha : ∀ c ∈ commitsData, spChar ∉ c.commitShaSource) :
    ∀ shadowLogFile2 : Option Str,
      (runEngine config false diffOf
          (targetCommitMessages
            ++ ((runEngine config false diffOf targetCommitMessages shadowLogFile
                  commitsData).created).map (fun sc => sc.commitMessage))
          shadowLogFile2 commitsData).created = [] := by
  intro shadowLogFile2
  have hrun1 : ((runEngine config false diffOf targetCommitMessages shadowLogFile
        commitsData).created).map (fun sc => sc.commitMessage)
      = ((commitsData.filter
            (fun c => config.commitAuthorEmailsSource.contains c.commitAuthorEmailSource)).filter
          (fun c => decide (¬ isSkipped diffOf (getShadowedShas targetCommitMessages) c))).map
          (fun c => mkCommitMessage c (diffOf c.commitShaSource)) :=
    processCommits_created_messages config diffOf (getShadowedShas targetCommitMessages)
      (commitsData.filter
        (fun c => config.commitAuthorEmailsSource.contains c.commitAuthorEmailSource))
      (getShadowLogLines shadowLogFile)
  have hall : ∀ c ∈ commitsData.filter
      (fun c => config.commitAuthorEmailsSource.contains c.commitAuthorEmailSource),
      isSkipped diffOf
        (getShadowedShas (targetCommitMessages
          ++ ((runEngine config false diffOf targetCommitMessages shadowLogFile
                commitsData).created).map (fun sc => sc.commitMessage))) c := by
    intro c hc
    have hcd : c ∈ commitsData := (List.mem_filter.mp hc).1
    rw [getShadowedShas_append]
    by_cases h1 : some c.commitShaSource ∈ getShadowedShas targetCommitMessages
    · exact Or.inl (List.mem_append_left _ h1)
    · by_cases h2 : (diffOf c.commitShaSource).commitInsertions = 0
          ∧ (diffOf c.commitShaSource).commitDeletions = 0
      · exact Or.inr h2
      · have hkeep := not_isSkipped_of diffOf (getShadowedShas targetCommitMessages) c h1 h2
        have hmsg : mkCommitMessage c (diffOf c.commitShaSource)
            ∈ ((runEngine config false diffOf targetCommitMessages shadowLogFile
                commitsData).created).map (fun sc => sc.commitMessage) := by
          rw [hrun1]
          refine List.mem_map.mpr ⟨c, ?_, rfl⟩
          exact List.mem_filter.mpr ⟨hc, by simpa using hkeep⟩
        refine Or.inl (List.mem_append_right _ ?_)
        rw [getShadowedShas_eq_map]
        refine List.mem_map.mpr ⟨mkCommitMessage c (diffOf c.commitShaSource), hmsg, ?_⟩
        rw [leadingToken_mkCommitMessage c (diffOf c.commitShaSource) (hsha c hcd)]
  have hres := processCommits_all_skipped config false diffOf
    (getShadowedShas (targetCommitMessages
      ++ ((runEngine config false diffOf targetCommitMessages shadowLogFile
            commitsData).created).map (fun sc => sc.commitMessage)))
    (commitsData.filter
      (fun c => config.commitAuthorEmailsSource.contains c.commitAuthorEmailSource))
    (getShadowLogLines shadowLogFile2) hall
  show (processCommits config false diffOf
      (getShadowedShas (targetCommitMessages
        ++ ((runEngine config false diffOf targetCommitMessages shadowLogFile
              commitsData).created).map (fun sc => sc.commitMessage)))
      (commitsData.filter
        (fun c => config.commitAuthorEmailsSource.contains c.commitAuthorEmailSource))
      (getShadowLogLines shadowLogFile2)).created = []
  rw [hres]

/-- C1 witness: a second run immediately after mirroring `demoCommit`
creates nothing. -/
theorem second_run_witness :
    (runEngine demoConfig false demoDiff
        ([] ++ ((runEngine demoConfig false demoDiff [] none [demoCommit]).created).map
          (fun sc => sc.commitMessage))
        none [demoCommit]).created = [] :=
  second_run_creates_no_commits demoConfig demoDiff [] none [demoCommit] (by decide) none

end ShadowGit

namespace ShadowGit

/-- C3 (code bug): History Reader merge exclusion fails.  The git command
built at shadow.js line 516 contains no `--no-merges` flag — although the
function's own doc comment says "Ignores merges via --no-merges" — so the
returned sequence does contain merge commits: on a branch whose ancestry is
an ordinary commit followed by a merge commit, the reader returns both,
whereas with the flag (last conjunct) the merge would have been excluded. -/
theorem history_reader_returns_merge_commit :
    hasNoMergesFlag (sourceLogCmd demoBranch) = false ∧
    demoRawMerge.isMerge = true ∧
    (getCommitsDataFromRepoSource demoRepo demoBranch).map (fun c => c.commitShaSource)
      = [("aaa1111").data, ("bbb2222").data] ∧
    ((jsTrim (gitLogSourceOutput demoRepo true)).splitOn nlChar).map
        (fun l => (l.splitOn usChar).getD 0 [])
      = [("aaa1111").data] := by
  refine ⟨by decide, rfl, by decide, by decide⟩

end ShadowGit
